import Mathlib

/-!
Verification of the ephemeris parsing core of the `rhorizons` repository.

Lines of text are embedded as `List Char`.  Rust `f32`/`f64` decoding is
embedded over `ℚ`: a successfully parsed decimal-scientific literal is kept
as its exact rational value (IEEE-754 rounding is abstracted away).  Rust
panics (`unwrap` on a failed `Option`/`Result`, out-of-bounds indexing) are
modelled explicitly by the `PanicKind` type: a result of
`Except.error (p : PanicKind)` means the Rust process aborts, it is not a
recoverable value.
-/

namespace RHorizons

/-- A `chumsky::error::Simple<char>`: the failure span, the unexpected
character (`none` at end of input) and the expected alternatives the model
records.  Offsets are character offsets (the format is ASCII, so they
coincide with byte offsets). -/
structure PError where
  spanStart : Nat
  spanStop : Nat
  found : Option Char
  expected : List (List Char)
  deriving DecidableEq

/-- Rust panic sites of `src/ephemeris.rs`, made explicit. -/
inductive PanicKind where
  | unexpectedLabel (expected : List Char) (line : List Char)
  | floatParse (raw : List Char)
  | dateParse (raw : List Char)
  | indexOutOfBounds
  | grammarUnwrap (errors : List PError)
  deriving DecidableEq

/-- Characters of a string literal; every string literal in this file goes
through this helper. -/
def chars (s : String) : List Char := s.toList

instance {ε α : Type} [DecidableEq ε] [DecidableEq α] : DecidableEq (Except ε α) :=
  fun a b =>
    match a, b with
    | Except.ok x, Except.ok y =>
      if h : x = y then isTrue (by rw [h])
      else isFalse (fun hc => h (Except.ok.inj hc))
    | Except.error x, Except.error y =>
      if h : x = y then isTrue (by rw [h])
      else isFalse (fun hc => h (Except.error.inj hc))
    | Except.ok _, Except.error _ => isFalse (fun hc => Except.noConfusion hc)
    | Except.error _, Except.ok _ => isFalse (fun hc => Except.noConfusion hc)

/-- Modelled from the spec, §4.1 (`utilities.rs` is not part of the sources
here, only its callers are): `take_expecting(line, label)` returns the
remainder after the exact literal `label`, or fails when `line` does not
start with `label`. -/
def take_expecting (line expected : List Char) : Option (List Char) :=
  if expected.isPrefixOf line then some (line.drop expected.length) else none

/-- Modelled from the spec, §4.1: `take_or_empty(line, width)` splits the
first `width` characters off `line`; a shorter line yields whatever is
available, without error. -/
def take_or_empty (line : List Char) (width : Nat) : List Char × List Char :=
  (line.take width, line.drop width)

/-- Rust `str::trim` (ASCII whitespace at both ends). -/
def rustTrim (s : List Char) : List Char :=
  ((s.dropWhile Char.isWhitespace).reverse.dropWhile Char.isWhitespace).reverse

/-- Digits read most-significant first. -/
def digitsToNat (ds : List Char) : Nat :=
  ds.foldl (fun a c => a * 10 + (c.toNat - 48)) 0

/-- Rust `str::split` on a separator character. -/
def splitAll (sep : Char) : List Char → List (List Char)
  | [] => [[]]
  | c :: r =>
    if c = sep then [] :: splitAll sep r
    else
      match splitAll sep r with
      | [] => [[c]]
      | h :: t => (c :: h) :: t

/-- Rust `str::split_terminator`: like `split`, but a trailing empty
substring (produced by a trailing separator) is dropped. -/
def splitTerm (sep : Char) (s : List Char) : List (List Char) :=
  let ps := splitAll sep s
  if ps.getLast? = some [] then ps.dropLast else ps

/-- Sign characters accepted by Rust float literals. -/
def parseSign : List Char → Int × List Char
  | '+' :: r => (1, r)
  | '-' :: r => (-1, r)
  | s => (1, s)

/-- Rust `str::parse::<f32>` / `::<f64>` on the decimal-scientific grammar
`[sign] digits ['.' digits] [('e'|'E') [sign] digits]` (at least one mantissa
digit; the whole input must be consumed).  The value is kept exact in `ℚ`;
the special forms `inf`/`NaN` are outside the fragment the format uses and
are mapped to `none`. -/
def parseFloat? (s : List Char) : Option ℚ :=
  let (sg, s1) := parseSign s
  let ip := s1.takeWhile Char.isDigit
  let s2 := s1.drop ip.length
  let (fp, s3) :=
    match s2 with
    | '.' :: r => (r.takeWhile Char.isDigit, r.drop (r.takeWhile Char.isDigit).length)
    | _ => ([], s2)
  if ip.isEmpty ∧ fp.isEmpty then none
  else
    let mant : ℚ := (sg * (digitsToNat (ip ++ fp) : Int) : Int) / ((10 : ℚ) ^ fp.length)
    match s3 with
    | [] => some mant
    | 'e' :: r =>
      let (es, r1) := parseSign r
      let ed := r1.takeWhile Char.isDigit
      if ed.isEmpty ∨ ¬(r1.drop ed.length).isEmpty then none
      else some (if es = 1 then mant * (10 : ℚ) ^ digitsToNat ed
                 else mant / (10 : ℚ) ^ digitsToNat ed)
    | 'E' :: r =>
      let (es, r1) := parseSign r
      let ed := r1.takeWhile Char.isDigit
      if ed.isEmpty ∨ ¬(r1.drop ed.length).isEmpty then none
      else some (if es = 1 then mant * (10 : ℚ) ^ digitsToNat ed
                 else mant / (10 : ℚ) ^ digitsToNat ed)
    | _ => none

/-- A `chrono::DateTime<Utc>` value, kept as its calendar fields (the parsed
representation is unique for valid dates, so field equality is timestamp
equality). -/
structure UtcDateTime where
  year : Nat
  month : Nat
  day : Nat
  hour : Nat
  minute : Nat
  second : Nat
  nano : Nat
  deriving DecidableEq

/-- The English month abbreviation table chrono matches `%b` against. -/
def monthAbbrevs : List (List Char × Nat) :=
  [(chars "jan", 1), (chars "feb", 2), (chars "mar", 3), (chars "apr", 4),
   (chars "may", 5), (chars "jun", 6), (chars "jul", 7), (chars "aug", 8),
   (chars "sep", 9), (chars "oct", 10), (chars "nov", 11), (chars "dec", 12)]

/-- chrono `%b`: a three-letter English month abbreviation, matched
case-insensitively. -/
def monthAbbrevToNum (m : List Char) : Option Nat :=
  (monthAbbrevs.find? (fun p => p.1 = m.map Char.toLower)).map (fun p => p.2)

def isLeapYear (y : Nat) : Bool :=
  (y % 4 = 0 && y % 100 ≠ 0) || (y % 400 = 0)

def daysInMonth (y mo : Nat) : Nat :=
  match mo with
  | 1 => 31 | 2 => if isLeapYear y then 29 else 28
  | 3 => 31 | 4 => 30 | 5 => 31 | 6 => 30
  | 7 => 31 | 8 => 31 | 9 => 30 | 10 => 31
  | 11 => 30 | 12 => 31
  | _ => 0

/-- chrono's validity check when assembling a `NaiveDateTime` from parsed
fields (the month always comes from a month-name item here, so only the
day/hour/minute/second ranges are at stake). -/
def dateFieldsValid (y mo d h mi s : Nat) : Bool :=
  1 ≤ d && d ≤ daysInMonth y mo && h ≤ 23 && mi ≤ 59 && s ≤ 59

/-- chrono numeric field: at most `cap` digits, at least one. -/
def readNatCap (cap : Nat) (s : List Char) : Option (Nat × List Char) :=
  if ((s.takeWhile Char.isDigit).take cap).isEmpty then none
  else some (digitsToNat ((s.takeWhile Char.isDigit).take cap),
             s.drop ((s.takeWhile Char.isDigit).take cap).length)

/-- One literal character of a chrono format string. -/
def expectChar (c : Char) (s : List Char) : Option (List Char) :=
  match s with
  | c2 :: r => if c2 = c then some r else none
  | [] => none

/-- The common `%Y-%b-%d %H:%M:%S` part of the two chrono format strings of
`ephemeris.rs`, returning the remaining input.  `%Y` takes the maximal digit
run; `%d`, `%H`, `%M`, `%S` take at most two digits. -/
def parseDateCore (s : List Char) : Option (UtcDateTime × List Char) :=
  if (s.takeWhile Char.isDigit).isEmpty then none
  else
    match expectChar '-' (s.drop (s.takeWhile Char.isDigit).length) with
    | none => none
    | some s2 =>
      match monthAbbrevToNum (s2.take 3) with
      | none => none
      | some mo =>
        match expectChar '-' (s2.drop 3) with
        | none => none
        | some s4 =>
          match readNatCap 2 s4 with
          | none => none
          | some (d, s5) =>
            match expectChar ' ' s5 with
            | none => none
            | some s6 =>
              match readNatCap 2 s6 with
              | none => none
              | some (h, s7) =>
                match expectChar ':' s7 with
                | none => none
                | some s8 =>
                  match readNatCap 2 s8 with
                  | none => none
                  | some (mi, s9) =>
                    match expectChar ':' s9 with
                    | none => none
                    | some s10 =>
                      match readNatCap 2 s10 with
                      | none => none
                      | some (sec, s11) =>
                        if dateFieldsValid (digitsToNat (s.takeWhile Char.isDigit))
                            mo d h mi sec then
                          some (⟨digitsToNat (s.takeWhile Char.isDigit),
                                 mo, d, h, mi, sec, 0⟩, s11)
                        else none

/-- `NaiveDateTime::parse_from_str(s, "%Y-%b-%d %H:%M:%S")`: the whole input
must be consumed; whole-second result. -/
def parseFormat1 (s : List Char) : Option UtcDateTime :=
  match parseDateCore s with
  | some (t, rest) => if rest.isEmpty then some t else none
  | none => none

/-- `NaiveDateTime::parse_from_str(s, "%Y-%b-%d %H:%M:%S.%f")`: a literal
dot then `%f`, which reads at most nine digits as a plain nanosecond count
(chrono's `%f` does not scale by the number of digits); the whole input must
be consumed. -/
def parseFormat2 (s : List Char) : Option UtcDateTime :=
  match parseDateCore s with
  | some (t, rest) =>
    match expectChar '.' rest with
    | some r =>
      if ((r.takeWhile Char.isDigit).take 9).isEmpty then none
      else if (r.drop ((r.takeWhile Char.isDigit).take 9).length).isEmpty then
        some { t with nano := digitsToNat ((r.takeWhile Char.isDigit).take 9) }
      else none
    | none => none
  | none => none

/-- The streaming decoder `parse_date_time` of `ephemeris.rs`: split the
line on `=`, index segment 1 (an out-of-bounds index is a panic), trim,
strip the literal `"A.D. "` (a failed `take_expecting` is unwrapped), take a
fixed 20-character slice and parse it with the seconds-only format (a failed
parse is unwrapped). -/
def parse_date_time (line : List Char) : Except PanicKind UtcDateTime :=
  match (splitTerm '=' line).get? 1 with
  | none => Except.error PanicKind.indexOutOfBounds
  | some seg =>
    let dts := rustTrim seg
    match take_expecting dts (chars "A.D. ") with
    | none => Except.error (PanicKind.unexpectedLabel (chars "A.D. ") dts)
    | some r =>
      match parseFormat1 (take_or_empty r 20).1 with
      | none => Except.error (PanicKind.dateParse (take_or_empty r 20).1)
      | some t => Except.ok t

/-! ## Streaming state machines -/

/-- A position or velocity vector, components in source order. -/
abbrev Vec3 := ℚ × ℚ × ℚ

/-- `EphemerisVectorItem` of `ephemeris.rs`. -/
structure EphemerisVectorItem where
  time : UtcDateTime
  position : Vec3
  velocity : Vec3
  deriving DecidableEq

/-- `EphemerisOrbitalElementsItem` of `ephemeris.rs` (the source's field
names, including the `siderral` spelling, are kept). -/
structure EphemerisOrbitalElementsItem where
  time : UtcDateTime
  eccentricity : ℚ
  periapsis_distance : ℚ
  inclination : ℚ
  longitude_of_ascending_node : ℚ
  argument_of_perifocus : ℚ
  time_of_periapsis : ℚ
  mean_motion : ℚ
  mean_anomaly : ℚ
  true_anomaly : ℚ
  semi_major_axis : ℚ
  apoapsis_distance : ℚ
  siderral_orbit_period : ℚ
  deriving DecidableEq

/-- `EphemerisVectorParserState`. -/
inductive VState where
  | WaitingForSoe
  | WaitingForDate
  | Date (time : UtcDateTime)
  | Position (time : UtcDateTime) (position : Vec3)
  | Complete (time : UtcDateTime) (position : Vec3) (velocity : Vec3)
  | End
  deriving DecidableEq

/-- `EphemerisOrbitalElementsParserState`. -/
inductive OState where
  | WaitingForSoe
  | WaitingForDate
  | Date (time : UtcDateTime)
  | FirstRow (time : UtcDateTime) (e q i : ℚ)
  | SecondRow (time : UtcDateTime) (e q i om w tp : ℚ)
  | ThirdRow (time : UtcDateTime) (e q i om w tp n ma ta : ℚ)
  | End
  deriving DecidableEq

def VState.isEnd : VState → Bool
  | VState.End => true
  | _ => false

def OState.isEnd : OState → Bool
  | OState.End => true
  | _ => false

def soeL : List Char := chars "$$SOE"
def eoeL : List Char := chars "$$EOE"

/-- The repeated three-field pattern of the data lines: expect a label
(`take_expecting(..).unwrap()`), slice 22 characters, three times over, then
trim each slice and parse it as a float (`parse::<f32>().unwrap()`). -/
def parseTriple (labA labB labC line : List Char) : Except PanicKind Vec3 :=
  match take_expecting line labA with
  | none => Except.error (PanicKind.unexpectedLabel labA line)
  | some r1 =>
    let (fa, r1x) := take_or_empty r1 22
    match take_expecting r1x labB with
    | none => Except.error (PanicKind.unexpectedLabel labB r1x)
    | some r2 =>
      let (fb, r2x) := take_or_empty r2 22
      match take_expecting r2x labC with
      | none => Except.error (PanicKind.unexpectedLabel labC r2x)
      | some r3 =>
        let (fc, _) := take_or_empty r3 22
        match parseFloat? (rustTrim fa) with
        | none => Except.error (PanicKind.floatParse (rustTrim fa))
        | some va =>
          match parseFloat? (rustTrim fb) with
          | none => Except.error (PanicKind.floatParse (rustTrim fb))
          | some vb =>
            match parseFloat? (rustTrim fc) with
            | none => Except.error (PanicKind.floatParse (rustTrim fc))
            | some vc => Except.ok (va, vb, vc)

/-- One loop iteration of `EphemerisVectorParser::next` on one input line:
the successor state and the record emitted by this iteration, if any. -/
def vectorStep (s : VState) (line : List Char) :
    Except PanicKind (VState × Option EphemerisVectorItem) :=
  match s with
  | VState.WaitingForSoe =>
    Except.ok (if line = soeL then VState.WaitingForDate else VState.WaitingForSoe, none)
  | VState.WaitingForDate =>
    if line = eoeL then Except.ok (VState.End, none)
    else
      match parse_date_time line with
      | Except.error p => Except.error p
      | Except.ok t => Except.ok (VState.Date t, none)
  | VState.Date t =>
    match parseTriple (chars " X =") (chars " Y =") (chars " Z =") line with
    | Except.error p => Except.error p
    | Except.ok v => Except.ok (VState.Position t v, none)
  | VState.Position t pos =>
    match parseTriple (chars " VX=") (chars " VY=") (chars " VZ=") line with
    | Except.error p => Except.error p
    | Except.ok v => Except.ok (VState.Complete t pos v, none)
  | VState.Complete t pos v =>
    Except.ok (VState.WaitingForDate, some ⟨t, pos, v⟩)
  | VState.End => Except.ok (VState.End, none)

/-- Driving `EphemerisVectorParser` over a line list: the records collected
(in emission order) and either the final machine state (the iterator is
drained, or stopped at `End`) or the panic that aborted the process. -/
def vectorRun (s : VState) : List (List Char) →
    List EphemerisVectorItem × Except PanicKind VState
  | [] => ([], Except.ok s)
  | l :: ls =>
    match vectorStep s l with
    | Except.error p => ([], Except.error p)
    | Except.ok (s2, oi) =>
      if s2.isEnd then (oi.toList, Except.ok s2)
      else (oi.toList ++ (vectorRun s2 ls).1, (vectorRun s2 ls).2)

/-- One loop iteration of `EphemerisOrbitalElementsParser::next`. -/
def orbitalStep (s : OState) (line : List Char) :
    Except PanicKind (OState × Option EphemerisOrbitalElementsItem) :=
  match s with
  | OState.WaitingForSoe =>
    Except.ok (if line = soeL then OState.WaitingForDate else OState.WaitingForSoe, none)
  | OState.WaitingForDate =>
    if line = eoeL then Except.ok (OState.End, none)
    else
      match parse_date_time line with
      | Except.error p => Except.error p
      | Except.ok t => Except.ok (OState.Date t, none)
  | OState.Date t =>
    match parseTriple (chars " EC=") (chars " QR=") (chars " IN=") line with
    | Except.error p => Except.error p
    | Except.ok (e, q, i) => Except.ok (OState.FirstRow t e q i, none)
  | OState.FirstRow t e q i =>
    match parseTriple (chars " OM=") (chars " W =") (chars " Tp=") line with
    | Except.error p => Except.error p
    | Except.ok (om, w, tp) => Except.ok (OState.SecondRow t e q i om w tp, none)
  | OState.SecondRow t e q i om w tp =>
    match parseTriple (chars " N =") (chars " MA=") (chars " TA=") line with
    | Except.error p => Except.error p
    | Except.ok (n, ma, ta) => Except.ok (OState.ThirdRow t e q i om w tp n ma ta, none)
  | OState.ThirdRow t e q i om w tp n ma ta =>
    match parseTriple (chars " A =") (chars " AD=") (chars " PR=") line with
    | Except.error p => Except.error p
    | Except.ok (a, ad, pr) =>
      Except.ok (OState.WaitingForDate, some ⟨t, e, q, i, om, w, tp, n, ma, ta, a, ad, pr⟩)
  | OState.End => Except.ok (OState.End, none)

/-- Driving `EphemerisOrbitalElementsParser` over a line list. -/
def orbitalRun (s : OState) : List (List Char) →
    List EphemerisOrbitalElementsItem × Except PanicKind OState
  | [] => ([], Except.ok s)
  | l :: ls =>
    match orbitalStep s l with
    | Except.error p => ([], Except.error p)
    | Except.ok (s2, oi) =>
      if s2.isEnd then (oi.toList, Except.ok s2)
      else (oi.toList ++ (orbitalRun s2 ls).1, (orbitalRun s2 ls).2)

/-! ## Grammar-based whole-document parser

A shallow embedding of the chumsky combinators that `ephemeris.rs` uses.
Offsets are character offsets (the format is ASCII, so they coincide with
byte offsets).  A combinator either succeeds with a value and the remaining
input, fails with a nonempty list of `Simple`-style syntax errors, or panics
(the `unwrap` inside `date_time_parser`'s `map` closure). -/

/-- Remaining input and current offset. -/
abbrev PInput := List Char × Nat

inductive PResult (α : Type) where
  | ok (a : α) (rest : PInput)
  | err (es : List PError)
  | panicked (p : PanicKind)
  deriving DecidableEq

/-- A parser combinator over characters. -/
def PComb (α : Type) : Type := PInput → PResult α

/-- `just(lit)`. -/
def pjust (lit : List Char) : PComb (List Char) := fun inp =>
  if lit.isPrefixOf inp.1 then
    PResult.ok lit (inp.1.drop lit.length, inp.2 + lit.length)
  else PResult.err [⟨inp.2, inp.2 + 1, inp.1.head?, [lit]⟩]

/-- `filter(f)`: one character satisfying `f`. -/
def pfilterChar (f : Char → Bool) : PComb Char := fun inp =>
  match inp.1 with
  | [] => PResult.err [⟨inp.2, inp.2 + 1, none, []⟩]
  | c :: cs =>
    if f c then PResult.ok c (cs, inp.2 + 1)
    else PResult.err [⟨inp.2, inp.2 + 1, some c, []⟩]

/-- `any()`. -/
def panyChar : PComb Char := pfilterChar (fun _ => true)

/-- `end()`. -/
def pendP : PComb Unit := fun inp =>
  match inp.1 with
  | [] => PResult.ok () inp
  | c :: _ => PResult.err [⟨inp.2, inp.2 + 1, some c, []⟩]

/-- `.map(f)`. -/
def pmapP (p : PComb α) (f : α → β) : PComb β := fun inp =>
  match p inp with
  | PResult.ok a rest => PResult.ok (f a) rest
  | PResult.err es => PResult.err es
  | PResult.panicked q => PResult.panicked q

/-- `.then(q)`. -/
def pseq (p : PComb α) (q : PComb β) : PComb (α × β) := fun inp =>
  match p inp with
  | PResult.ok a rest =>
    match q rest with
    | PResult.ok b rest2 => PResult.ok (a, b) rest2
    | PResult.err es => PResult.err es
    | PResult.panicked r => PResult.panicked r
  | PResult.err es => PResult.err es
  | PResult.panicked r => PResult.panicked r

/-- `.ignore_then(q)`. -/
def pignoreThen (p : PComb α) (q : PComb β) : PComb β :=
  pmapP (pseq p q) (fun x => x.2)

/-- `.then_ignore(q)`. -/
def pthenIgnore (p : PComb α) (q : PComb β) : PComb α :=
  pmapP (pseq p q) (fun x => x.1)

/-- Fuelled loop behind `.repeated()`: keep applying `p` while it succeeds
and consumes input (every parser repeated in `ephemeris.rs` consumes on
success, so the no-progress guard is never hit on reachable inputs). -/
def prepGo (p : PComb α) : Nat → PInput → PResult (List α)
  | 0, inp => PResult.ok [] inp
  | Nat.succ fuel, inp =>
    match p inp with
    | PResult.err _ => PResult.ok [] inp
    | PResult.panicked q => PResult.panicked q
    | PResult.ok a rest =>
      if rest.1.length < inp.1.length then
        match prepGo p fuel rest with
        | PResult.ok l rest2 => PResult.ok (a :: l) rest2
        | PResult.err es => PResult.err es
        | PResult.panicked q => PResult.panicked q
      else PResult.ok [a] rest

/-- `.repeated()` (zero or more, greedy, no backtracking past the loop). -/
def prepeated (p : PComb α) : PComb (List α) := fun inp =>
  prepGo p (inp.1.length + 1) inp

/-- `text::whitespace()`-style padding consumer: never fails. -/
def pwhitespace : PComb Unit := fun inp =>
  PResult.ok () (inp.1.dropWhile Char.isWhitespace,
                 inp.2 + (inp.1.takeWhile Char.isWhitespace).length)

/-- `.padded()`. -/
def ppadded (p : PComb α) : PComb α :=
  pignoreThen pwhitespace (pthenIgnore p pwhitespace)

/-- `text::newline()` (the `\n`, `\r\n` and `\r` endings; the exotic Unicode
endings chumsky also accepts never occur in this format). -/
def pnewline : PComb Unit := fun inp =>
  match inp.1 with
  | '\r' :: '\n' :: cs => PResult.ok () (cs, inp.2 + 2)
  | '\n' :: cs => PResult.ok () (cs, inp.2 + 1)
  | '\r' :: cs => PResult.ok () (cs, inp.2 + 1)
  | c :: _ => PResult.err [⟨inp.2, inp.2 + 1, some c, [[Char.ofNat 10]]⟩]
  | [] => PResult.err [⟨inp.2, inp.2 + 1, none, [[Char.ofNat 10]]⟩]

/-- Loop behind `take_until(stop)`: try `stop`; on failure consume one
character and continue; at end of input surface `stop`'s error. -/
def takeUntilGo (stop : PComb α) : List Char → Nat → PResult (List Char × α)
  | s, off =>
    match stop (s, off) with
    | PResult.ok a rest => PResult.ok ([], a) rest
    | PResult.panicked p => PResult.panicked p
    | PResult.err es =>
      match s with
      | [] => PResult.err es
      | c :: cs =>
        match takeUntilGo stop cs (off + 1) with
        | PResult.ok (l, a) rest => PResult.ok (c :: l, a) rest
        | r => r

/-- `take_until(stop)`. -/
def ptakeUntil (stop : PComb α) : PComb (List Char × α) := fun inp =>
  takeUntilGo stop inp.1 inp.2

/-- The character set of `float_parser`'s `filter`. -/
def floatChar (c : Char) : Bool :=
  c.isDigit || c = '.' || c = 'E' || c = '-' || c = '+'

/-- `float_parser::<F>()`: a run of float characters, `try_map`ped through
Rust float parsing; a failed parse is a syntax error at the run's span
(`Simple::expected_input_found(span, None, None)`). -/
def floatG : PComb ℚ := fun inp =>
  match prepeated (pfilterChar floatChar) inp with
  | PResult.ok cs rest =>
    match parseFloat? cs with
    | some q => PResult.ok q rest
    | none => PResult.err [⟨inp.2, rest.2, none, []⟩]
  | PResult.err es => PResult.err es
  | PResult.panicked p => PResult.panicked p

/-- `date_time_parser()` of `ephemeris.rs` (the name loses its suffix here):
`just("A.D. ")`, then everything up to the literal `" TDB"`, parsed with the
fractional-second format; the `unwrap` in the `map` closure panics on an
invalid date. -/
def dateTimeG : PComb UtcDateTime := fun inp =>
  match pignoreThen (pjust (chars "A.D. ")) (ptakeUntil (pjust (chars " TDB"))) inp with
  | PResult.ok (cs, _) rest =>
    match parseFormat2 cs with
    | some t => PResult.ok t rest
    | none => PResult.panicked (PanicKind.dateParse cs)
  | PResult.err es => PResult.err es
  | PResult.panicked p => PResult.panicked p

/-- `parameter_parser(name)`: the bare label, a padded `=`, then a float. -/
def parameterG (name : List Char) : PComb ℚ :=
  pignoreThen (pjust name) (pignoreThen (ppadded (pjust (chars "="))) floatG)

/-- `EphemerisOrbitalElementsItem::parser()`: the Julian-day float and
timestamp, then the twelve labelled parameters in fixed order, assembled
into a record (the leading Julian-day float is dropped, as in the source's
`map`). -/
def itemG : PComb EphemerisOrbitalElementsItem :=
  pmapP
    (pseq (pseq (pseq (pseq (pseq (pseq (pseq (pseq (pseq (pseq (pseq (pseq
      (pseq (pthenIgnore floatG (ppadded (pjust (chars "="))))
        (ppadded dateTimeG))
      (ppadded (parameterG (chars "EC"))))
      (ppadded (parameterG (chars "QR"))))
      (ppadded (parameterG (chars "IN"))))
      (ppadded (parameterG (chars "OM"))))
      (ppadded (parameterG (chars "W"))))
      (ppadded (parameterG (chars "Tp"))))
      (ppadded (parameterG (chars "N"))))
      (ppadded (parameterG (chars "MA"))))
      (ppadded (parameterG (chars "TA"))))
      (ppadded (parameterG (chars "A"))))
      (ppadded (parameterG (chars "AD"))))
      (parameterG (chars "PR")))
    (fun x =>
      match x with
      | ((((((((((((jdTime, ec), qr), inc), om), w), tp), n), ma), ta), a), ad), pr) =>
        ⟨jdTime.2, ec, qr, inc, om, w, tp, n, ma, ta, a, ad, pr⟩)

/-- One record followed by a newline, as repeated inside `parse`. -/
def recordG : PComb EphemerisOrbitalElementsItem := pthenIgnore itemG pnewline

/-- The whole-document grammar of `parse`: skip to the first `$`, the
records delimited by the padded `$$SOE` and `$$EOE` sentinels, then any
trailing content up to end of input. -/
def docG : PComb (List EphemerisOrbitalElementsItem) :=
  pthenIgnore
    (pthenIgnore
      (pignoreThen (prepeated (pfilterChar (fun c => c ≠ '$')))
        (pignoreThen (ppadded (pjust soeL))
          (pthenIgnore (prepeated recordG) (pjust eoeL))))
      (prepeated panyChar))
    pendP

/-- `parse` of `ephemeris.rs`: run the grammar on the whole input; a
successful run returns the records, a failed run reports the errors and then
`unwrap`s them — the process aborts, modelled by `Except.error`. -/
def parse (input : List Char) : Except PanicKind (List EphemerisOrbitalElementsItem) :=
  match docG (input, 0) with
  | PResult.ok items _ => Except.ok items
  | PResult.err es => Except.error (PanicKind.grammarUnwrap es)
  | PResult.panicked p => Except.error p

/-! ## Helper lemmas -/

/-- `true` when the list is empty or starts with a non-digit. -/
def headNotDigit : List Char → Bool
  | [] => true
  | c :: _ => !c.isDigit

theorem take_expecting_append (a b : List Char) :
    take_expecting (a ++ b) a = some b := by
  unfold take_expecting
  rw [if_pos (List.isPrefixOf_iff_prefix.mpr (List.prefix_append a b))]
  simp

theorem takeWhile_digit_append {a b : List Char}
    (ha : a.all Char.isDigit = true) (hb : headNotDigit b = true) :
    (a ++ b).takeWhile Char.isDigit = a := by
  induction a with
  | nil =>
    cases b with
    | nil => rfl
    | cons c cs =>
      simp only [headNotDigit, Bool.not_eq_true'] at hb
      simp [List.takeWhile_cons, hb]
  | cons c a ih =>
    simp only [List.all_cons, Bool.and_eq_true] at ha
    simp [List.takeWhile_cons, ha.1, ih ha.2]

theorem monthAbbrev_inversion {monS : List Char} {mo : Nat}
    (h : monthAbbrevToNum monS = some mo) :
    ∃ p, p ∈ monthAbbrevs ∧ p.1 = monS.map Char.toLower := by
  unfold monthAbbrevToNum at h
  cases hf : monthAbbrevs.find? (fun p => p.1 = monS.map Char.toLower) with
  | none => rw [hf] at h; exact Option.noConfusion h
  | some p =>
    refine ⟨p, List.mem_of_find?_eq_some hf, ?_⟩
    have := List.find?_some hf
    exact of_decide_eq_true this

theorem monthAbbrevs_wf :
    ∀ p ∈ monthAbbrevs, p.1.length = 3 ∧ ('=' : Char) ∉ p.1 := by decide

theorem monthAbbrev_length {monS : List Char} {mo : Nat}
    (h : monthAbbrevToNum monS = some mo) : monS.length = 3 := by
  obtain ⟨p, hp, heq⟩ := monthAbbrev_inversion h
  have h3 : p.1.length = 3 := (monthAbbrevs_wf p hp).1
  have := congrArg List.length heq
  simpa [h3] using this.symm

theorem monthAbbrev_not_eq {monS : List Char} {mo : Nat}
    (h : monthAbbrevToNum monS = some mo) : ('=' : Char) ∉ monS := by
  intro hmem
  obtain ⟨p, hp, heq⟩ := monthAbbrev_inversion h
  have hmem2 := List.mem_map_of_mem Char.toLower hmem
  rw [← heq] at hmem2
  exact (monthAbbrevs_wf p hp).2 hmem2

theorem splitAll_ne_nil (sep : Char) (s : List Char) : splitAll sep s ≠ [] := by
  induction s with
  | nil => simp [splitAll]
  | cons c r ih =>
    unfold splitAll
    split_ifs
    · simp
    · cases hs : splitAll sep r with
      | nil => simp
      | cons h t => simp

theorem splitAll_no_sep {sep : Char} {s : List Char} (h : sep ∉ s) :
    splitAll sep s = [s] := by
  induction s with
  | nil => rfl
  | cons c r ih =>
    simp only [List.mem_cons, not_or] at h
    unfold splitAll
    rw [if_neg (fun hc => h.1 hc.symm), ih h.2]

theorem splitAll_append {sep : Char} {a b : List Char}
    (ha : sep ∉ a) (hb : sep ∉ b) :
    splitAll sep (a ++ sep :: b) = [a, b] := by
  induction a with
  | nil => simp [splitAll, splitAll_no_sep hb]
  | cons c a ih =>
    simp only [List.mem_cons, not_or] at ha
    simp only [List.cons_append]
    unfold splitAll
    rw [if_neg (fun hc => ha.1 hc.symm), ih ha.2]

theorem splitTerm_two {sep : Char} {a b : List Char}
    (ha : sep ∉ a) (hb : sep ∉ b) (hbne : b ≠ []) :
    splitTerm sep (a ++ sep :: b) = [a, b] := by
  unfold splitTerm
  rw [splitAll_append ha hb]
  simp [List.getLast?, hbne]

/-- The `YYYY-Mon-DD HH:MM:SS` 20-character date text of a record preamble,
from its textual components. -/
def mkDateStr (y4 monS dd hh mm ss : List Char) : List Char :=
  y4 ++ '-' :: (monS ++ '-' :: (dd ++ ' ' :: (hh ++ ':' :: (mm ++ ':' :: ss))))

/-- The timestamp those components denote (whole-second). -/
def mkTs (y4 : List Char) (mo : Nat) (dd hh mm ss : List Char) : UtcDateTime :=
  ⟨digitsToNat y4, mo, digitsToNat dd, digitsToNat hh, digitsToNat mm, digitsToNat ss, 0⟩

theorem expectChar_cons (c : Char) (r : List Char) :
    expectChar c (c :: r) = some r := by
  simp [expectChar]

theorem readNatCap_exact {a b : List Char} {cap : Nat}
    (ha : a.all Char.isDigit = true) (halen : a.length = cap) (hane : a ≠ [])
    (hb : headNotDigit b = true) :
    readNatCap cap (a ++ b) = some (digitsToNat a, b) := by
  have htake : a.take cap = a := by
    rw [← halen]
    exact List.take_length a
  unfold readNatCap
  rw [takeWhile_digit_append ha hb, htake,
    if_neg (by simpa using hane), List.drop_left]

theorem parseDateCore_mk
    {y4 monS dd hh mm ss : List Char} (tail : List Char) {mo : Nat}
    (hy : y4.all Char.isDigit = true) (hyne : y4 ≠ [])
    (hmon : monthAbbrevToNum monS = some mo)
    (hd : dd.all Char.isDigit = true) (hdlen : dd.length = 2)
    (hhd : hh.all Char.isDigit = true) (hhlen : hh.length = 2)
    (hmd : mm.all Char.isDigit = true) (hmlen : mm.length = 2)
    (hsd : ss.all Char.isDigit = true) (hslen : ss.length = 2)
    (htail : headNotDigit tail = true)
    (hvalid : dateFieldsValid (digitsToNat y4) mo (digitsToNat dd)
        (digitsToNat hh) (digitsToNat mm) (digitsToNat ss) = true) :
    parseDateCore (mkDateStr y4 monS dd hh mm ss ++ tail) =
      some (mkTs y4 mo dd hh mm ss, tail) := by
  have hmlen3 := monthAbbrev_length hmon
  have hne2 : ∀ x : List Char, x.length = 2 → x ≠ [] := by
    intro x hx hnil
    rw [hnil] at hx
    exact absurd hx (by simp)
  have hyw : (y4 ++ '-' :: (monS ++ '-' :: (dd ++ ' ' :: (hh ++ ':' ::
      (mm ++ ':' :: (ss ++ tail)))))).takeWhile Char.isDigit = y4 :=
    takeWhile_digit_append hy (by rfl)
  have hyempty : y4.isEmpty = false := by
    cases y4 with
    | nil => exact absurd rfl hyne
    | cons c r => rfl
  have hmtake : ∀ X : List Char, (monS ++ X).take 3 = monS :=
    fun X => List.take_left' hmlen3
  have hmdrop : ∀ X : List Char, (monS ++ X).drop 3 = X :=
    fun X => List.drop_left' hmlen3
  have hdd := @readNatCap_exact dd (' ' :: (hh ++ ':' :: (mm ++ ':' :: (ss ++ tail)))) 2
    hd hdlen (hne2 _ hdlen) (by rfl)
  have hhh := @readNatCap_exact hh (':' :: (mm ++ ':' :: (ss ++ tail))) 2
    hhd hhlen (hne2 _ hhlen) (by rfl)
  have hmmx := @readNatCap_exact mm (':' :: (ss ++ tail)) 2
    hmd hmlen (hne2 _ hmlen) (by rfl)
  have hssx := @readNatCap_exact ss tail 2 hsd hslen (hne2 _ hslen) htail
  simp only [mkDateStr, List.append_assoc, List.cons_append, parseDateCore,
    hyw, hyempty, Bool.false_eq_true, if_false, List.drop_left, expectChar_cons,
    hmtake, hmdrop, hmon, hdd, hhh, hmmx, hssx, hvalid, if_true, mkTs]

/-- The hypotheses on the textual components of a record preamble, bundled:
each numeric component is all digits and has the fixed width of the format,
the month is a known abbreviation, and the denoted fields are a valid
calendar date. -/
def dateComponentsOk (y4 monS dd hh mm ss : List Char) (mo : Nat) : Prop :=
  y4.all Char.isDigit = true ∧ y4.length = 4 ∧
  monthAbbrevToNum monS = some mo ∧
  dd.all Char.isDigit = true ∧ dd.length = 2 ∧
  hh.all Char.isDigit = true ∧ hh.length = 2 ∧
  mm.all Char.isDigit = true ∧ mm.length = 2 ∧
  ss.all Char.isDigit = true ∧ ss.length = 2 ∧
  dateFieldsValid (digitsToNat y4) mo (digitsToNat dd) (digitsToNat hh)
    (digitsToNat mm) (digitsToNat ss) = true

instance (y4 monS dd hh mm ss : List Char) (mo : Nat) :
    Decidable (dateComponentsOk y4 monS dd hh mm ss mo) := by
  unfold dateComponentsOk
  infer_instance

theorem parseFormat1_mk {y4 monS dd hh mm ss : List Char} {mo : Nat}
    (h : dateComponentsOk y4 monS dd hh mm ss mo) :
    parseFormat1 (mkDateStr y4 monS dd hh mm ss) = some (mkTs y4 mo dd hh mm ss) := by
  obtain ⟨h1, h2, h3, h4, h5, h6, h7, h8, h9, h10, h11, h12⟩ := h
  have hcore := parseDateCore_mk [] h1
    (by intro hnil; rw [hnil] at h2; exact absurd h2 (by simp))
    h3 h4 h5 h6 h7 h8 h9 h10 h11 (by rfl) h12
  rw [List.append_nil] at hcore
  unfold parseFormat1
  simp only [hcore, List.isEmpty_nil, if_true]

theorem parseFormat2_mk {y4 monS dd hh mm ss frac : List Char} {mo : Nat}
    (h : dateComponentsOk y4 monS dd hh mm ss mo)
    (hf : frac.all Char.isDigit = true) (hfne : frac ≠ [])
    (hflen : frac.length ≤ 9) :
    parseFormat2 (mkDateStr y4 monS dd hh mm ss ++ '.' :: frac) =
      some { mkTs y4 mo dd hh mm ss with nano := digitsToNat frac } := by
  obtain ⟨h1, h2, h3, h4, h5, h6, h7, h8, h9, h10, h11, h12⟩ := h
  have hcore := parseDateCore_mk ('.' :: frac) h1
    (by intro hnil; rw [hnil] at h2; exact absurd h2 (by simp))
    h3 h4 h5 h6 h7 h8 h9 h10 h11 (by rfl) h12
  have hfw : frac.takeWhile Char.isDigit = frac := by
    have := @takeWhile_digit_append frac [] hf (by rfl)
    simpa using this
  have hftake : frac.take 9 = frac := List.take_of_length_le hflen
  have hfe : frac.isEmpty = false := by
    cases frac with
    | nil => exact absurd rfl hfne
    | cons a b => rfl
  unfold parseFormat2
  simp only [hcore, expectChar_cons, hfw, hftake, hfe, Bool.false_eq_true,
    if_false, List.drop_length, List.isEmpty_nil, if_true]

theorem digit_not_eqchar {a : List Char} (ha : a.all Char.isDigit = true) :
    ('=' : Char) ∉ a := by
  intro hm
  have := List.all_eq_true.mp ha '=' hm
  exact absurd this (by decide)

theorem not_mem_mkDateStr {y4 monS dd hh mm ss : List Char} {mo : Nat}
    (h : dateComponentsOk y4 monS dd hh mm ss mo) :
    ('=' : Char) ∉ mkDateStr y4 monS dd hh mm ss := by
  obtain ⟨h1, _, h3, h4, _, h6, _, h8, _, h10, _, _⟩ := h
  intro hm
  simp only [mkDateStr, List.mem_append, List.mem_cons] at hm
  rcases hm with hm | hm | hm | hm | hm | hm | hm | hm | hm | hm | hm
  · exact digit_not_eqchar h1 hm
  · exact absurd hm (by decide)
  · exact monthAbbrev_not_eq h3 hm
  · exact absurd hm (by decide)
  · exact digit_not_eqchar h4 hm
  · exact absurd hm (by decide)
  · exact digit_not_eqchar h6 hm
  · exact absurd hm (by decide)
  · exact digit_not_eqchar h8 hm
  · exact absurd hm (by decide)
  · exact digit_not_eqchar h10 hm

theorem mkDateStr_length {y4 monS dd hh mm ss : List Char} {mo : Nat}
    (h : dateComponentsOk y4 monS dd hh mm ss mo) :
    (mkDateStr y4 monS dd hh mm ss).length = 20 := by
  obtain ⟨_, h2, h3, _, h5, _, h7, _, h9, _, h11, _⟩ := h
  have hm3 := monthAbbrev_length h3
  simp [mkDateStr, List.length_append, h2, hm3, h5, h7, h9, h11]

theorem rustTrim_preamble (X : List Char) :
    rustTrim (' ' :: (chars "A.D. " ++ (X ++ chars " TDB"))) =
      chars "A.D. " ++ (X ++ chars " TDB") := by
  unfold rustTrim
  have h1 : (' ' :: (chars "A.D. " ++ (X ++ chars " TDB"))).dropWhile Char.isWhitespace
      = chars "A.D. " ++ (X ++ chars " TDB") := by
    rw [List.dropWhile_cons_of_pos (by decide)]
    rw [show chars "A.D. " = 'A' :: chars ".D. " from rfl, List.cons_append,
      List.dropWhile_cons_of_neg (by decide)]
  rw [h1]
  have hh : (chars "A.D. " ++ (X ++ chars " TDB")).reverse.head? = some 'B' := by
    rw [List.head?_reverse,
      @List.getLast?_append_of_ne_nil Char (chars "A.D. ") (X ++ chars " TDB")
        (by rw [show chars " TDB" = [' ', 'T', 'D', 'B'] from rfl]; simp),
      @List.getLast?_append_of_ne_nil Char X (chars " TDB") (by decide)]
    decide
  have h2 : (chars "A.D. " ++ (X ++ chars " TDB")).reverse.dropWhile Char.isWhitespace
      = (chars "A.D. " ++ (X ++ chars " TDB")).reverse := by
    cases hrev : (chars "A.D. " ++ (X ++ chars " TDB")).reverse with
    | nil => rfl
    | cons c rest =>
      rw [hrev] at hh
      simp only [List.head?_cons, Option.some.injEq] at hh
      rw [List.dropWhile_cons_of_neg (by rw [hh]; decide)]
  rw [h2, List.reverse_reverse]

theorem parse_date_time_mk
    {jd y4 monS dd hh mm ss frac : List Char} {mo : Nat}
    (hjd : ('=' : Char) ∉ jd)
    (h : dateComponentsOk y4 monS dd hh mm ss mo)
    (hf : frac.all Char.isDigit = true) :
    parse_date_time (jd ++ ' ' :: '=' :: ' ' :: (chars "A.D. " ++
        ((mkDateStr y4 monS dd hh mm ss ++ '.' :: frac) ++ chars " TDB"))) =
      Except.ok (mkTs y4 mo dd hh mm ss) := by
  have hZ := rustTrim_preamble (mkDateStr y4 monS dd hh mm ss ++ '.' :: frac)
  have nmem2 := not_mem_mkDateStr h
  have nmem3 : ('=' : Char) ∉ '.' :: frac := by
    intro hm
    rcases List.mem_cons.mp hm with hc | hc
    · exact absurd hc (by decide)
    · exact digit_not_eqchar hf hc
  have hmem : ('=' : Char) ∉ ' ' :: (chars "A.D. " ++
      ((mkDateStr y4 monS dd hh mm ss ++ '.' :: frac) ++ chars " TDB")) := by
    intro hm
    rcases List.mem_cons.mp hm with hc | hc
    · exact absurd hc (by decide)
    rcases List.mem_append.mp hc with hc | hc
    · revert hc; decide
    rcases List.mem_append.mp hc with hc | hc
    · rcases List.mem_append.mp hc with hc | hc
      · exact nmem2 hc
      · exact nmem3 hc
    · revert hc; decide
  have hsplit := @splitTerm_two '=' (jd ++ [' '])
    (' ' :: (chars "A.D. " ++
      ((mkDateStr y4 monS dd hh mm ss ++ '.' :: frac) ++ chars " TDB")))
    (by
      intro hm
      rcases List.mem_append.mp hm with hc | hc
      · exact hjd hc
      · revert hc; decide)
    hmem (by simp)
  have hline : jd ++ ' ' :: '=' :: ' ' :: (chars "A.D. " ++
      ((mkDateStr y4 monS dd hh mm ss ++ '.' :: frac) ++ chars " TDB")) =
      (jd ++ [' ']) ++ '=' :: (' ' :: (chars "A.D. " ++
      ((mkDateStr y4 monS dd hh mm ss ++ '.' :: frac) ++ chars " TDB"))) := by
    simp
  have htake : ((mkDateStr y4 monS dd hh mm ss ++ '.' :: frac) ++ chars " TDB").take 20 =
      mkDateStr y4 monS dd hh mm ss := by
    rw [List.append_assoc, List.cons_append]
    exact List.take_left' (mkDateStr_length h)
  unfold parse_date_time
  rw [hline, hsplit]
  simp only [List.get?_cons_succ, List.get?_cons_zero, hZ, take_expecting_append,
    take_or_empty, htake, parseFormat1_mk h]

theorem pjust_append (lit s : List Char) (k : Nat) :
    pjust lit (lit ++ s, k) = PResult.ok lit (s, k + lit.length) := by
  unfold pjust
  rw [if_pos (List.isPrefixOf_iff_prefix.mpr (List.prefix_append lit s))]
  rw [List.drop_left]

theorem infix_cons_of (c : Char) {a b : List Char} (h : a <:+: b) :
    a <:+: c :: b := by
  obtain ⟨s, t, rfl⟩ := h
  exact ⟨c :: s, t, by simp⟩

theorem takeUntil_tdb (Z rest : List Char) (k : Nat)
    (h : ¬ (chars " TDB") <:+: (Z ++ [' ', 'T', 'D'])) :
    takeUntilGo (pjust (chars " TDB")) (Z ++ (chars " TDB" ++ rest)) k =
      PResult.ok (Z, chars " TDB") (rest, k + Z.length + 4) := by
  induction Z generalizing k with
  | nil =>
    simp only [List.nil_append]
    unfold takeUntilGo
    simp only [pjust_append, List.length_nil, Nat.add_zero,
      show (chars " TDB").length = 4 from rfl]
  | cons c Z' ih =>
    have hnp : (chars " TDB").isPrefixOf (c :: (Z' ++ (chars " TDB" ++ rest))) = false := by
      cases hp : (chars " TDB").isPrefixOf (c :: (Z' ++ (chars " TDB" ++ rest))) with
      | false => rfl
      | true =>
        exfalso
        have hpre := List.isPrefixOf_iff_prefix.mp hp
        have hfull : c :: (Z' ++ (chars " TDB" ++ rest)) =
            ((c :: Z') ++ [' ', 'T', 'D']) ++ ('B' :: rest) := by
          rw [show chars " TDB" = [' ', 'T', 'D', 'B'] from rfl]
          simp
        have h4 : (chars " TDB") =
            (((c :: Z') ++ [' ', 'T', 'D']) ++ ('B' :: rest)).take 4 := by
          rw [← hfull]
          have := List.prefix_iff_eq_take.mp hpre
          rwa [show (chars " TDB").length = 4 from rfl] at this
        rw [List.take_append_eq_append_take] at h4
        have hlen : 4 ≤ ((c :: Z') ++ [' ', 'T', 'D']).length := by
          simp [List.length_append]
        rw [Nat.sub_eq_zero_of_le hlen, List.take_zero, List.append_nil] at h4
        refine h ?_
        rw [h4]
        exact (List.take_prefix 4 _).isInfix
    have hih := ih (k + 1) (fun hz => h (infix_cons_of c hz))
    unfold takeUntilGo
    simp only [pjust, hnp, Bool.false_eq_true, if_false, List.cons_append] at hih ⊢
    rw [hih]
    have harith : k + 1 + Z'.length + 4 = k + (Z'.length + 1) + 4 := by omega
    simp only [List.length_cons, harith]

theorem dateTimeG_mk
    {y4 monS dd hh mm ss frac : List Char} {mo : Nat} (rest : List Char) (k : Nat)
    (h : dateComponentsOk y4 monS dd hh mm ss mo)
    (hf : frac.all Char.isDigit = true) (hfne : frac ≠ []) (hflen : frac.length ≤ 9)
    (hnoT : ¬ (chars " TDB") <:+:
      ((mkDateStr y4 monS dd hh mm ss ++ '.' :: frac) ++ [' ', 'T', 'D'])) :
    dateTimeG (chars "A.D. " ++ ((mkDateStr y4 monS dd hh mm ss ++ '.' :: frac) ++
        (chars " TDB" ++ rest)), k) =
      PResult.ok { mkTs y4 mo dd hh mm ss with nano := digitsToNat frac }
        (rest, k + (30 + frac.length)) := by
  have hju := pjust_append (chars "A.D. ")
    ((mkDateStr y4 monS dd hh mm ss ++ '.' :: frac) ++ (chars " TDB" ++ rest)) k
  have htu := takeUntil_tdb (mkDateStr y4 monS dd hh mm ss ++ '.' :: frac) rest
    (k + (chars "A.D. ").length) hnoT
  have hfmt := parseFormat2_mk h hf hfne hflen
  have hlen20 := mkDateStr_length h
  unfold dateTimeG pignoreThen pmapP pseq ptakeUntil
  simp only [hju, htu, hfmt]
  congr 2
  simp only [List.length_append, List.length_cons, hlen20,
    show (chars "A.D. ").length = 5 from rfl]
  omega

/-! ## Error-list lemmas for the grammar parser -/

/-- A combinator whose failures always carry at least one syntax error. -/
def NeverEmptyErr (p : PComb α) : Prop :=
  ∀ inp es, p inp = PResult.err es → es ≠ []

theorem ne_pjust (lit : List Char) : NeverEmptyErr (pjust lit) := by
  intro inp es h
  unfold pjust at h
  split_ifs at h
  all_goals
    first
      | exact PResult.noConfusion h
      | (rw [← PResult.err.inj h]; simp)

theorem ne_pfilterChar (f : Char → Bool) : NeverEmptyErr (pfilterChar f) := by
  intro inp es h
  obtain ⟨s, off⟩ := inp
  unfold pfilterChar at h
  cases s with
  | nil =>
    rw [← PResult.err.inj h]
    simp
  | cons c cs =>
    dsimp at h
    split_ifs at h
    all_goals
      first
        | exact PResult.noConfusion h
        | (rw [← PResult.err.inj h]; simp)

theorem ne_panyChar : NeverEmptyErr panyChar := ne_pfilterChar _

theorem ne_pendP : NeverEmptyErr pendP := by
  intro inp es h
  obtain ⟨s, off⟩ := inp
  unfold pendP at h
  cases s with
  | nil => exact PResult.noConfusion h
  | cons c cs =>
    dsimp at h
    rw [← PResult.err.inj h]
    simp

theorem ne_pmapP {p : PComb α} (f : α → β) (hp : NeverEmptyErr p) :
    NeverEmptyErr (pmapP p f) := by
  intro inp es h
  unfold pmapP at h
  cases hr : p inp with
  | ok a rest => rw [hr] at h; exact PResult.noConfusion h
  | err es2 =>
    rw [hr] at h
    rw [← PResult.err.inj h]
    exact hp inp es2 hr
  | panicked q => rw [hr] at h; exact PResult.noConfusion h

theorem ne_pseq {p : PComb α} {q : PComb β}
    (hp : NeverEmptyErr p) (hq : NeverEmptyErr q) : NeverEmptyErr (pseq p q) := by
  intro inp es h
  unfold pseq at h
  cases hr : p inp with
  | ok a rest =>
    rw [hr] at h
    dsimp at h
    cases hs : q rest with
    | ok b rest2 => rw [hs] at h; exact PResult.noConfusion h
    | err es2 =>
      rw [hs] at h
      rw [← PResult.err.inj h]
      exact hq rest es2 hs
    | panicked r => rw [hs] at h; exact PResult.noConfusion h
  | err es2 =>
    rw [hr] at h
    rw [← PResult.err.inj h]
    exact hp inp es2 hr
  | panicked r => rw [hr] at h; exact PResult.noConfusion h

theorem ne_pignoreThen {p : PComb α} {q : PComb β}
    (hp : NeverEmptyErr p) (hq : NeverEmptyErr q) : NeverEmptyErr (pignoreThen p q) :=
  ne_pmapP _ (ne_pseq hp hq)

theorem ne_pthenIgnore {p : PComb α} {q : PComb β}
    (hp : NeverEmptyErr p) (hq : NeverEmptyErr q) : NeverEmptyErr (pthenIgnore p q) :=
  ne_pmapP _ (ne_pseq hp hq)

theorem prepGo_ne_err (p : PComb α) (fuel : Nat) (inp : PInput) (es : List PError) :
    prepGo p fuel inp ≠ PResult.err es := by
  induction fuel generalizing inp es with
  | zero => intro h; exact PResult.noConfusion h
  | succ fuel ih =>
    intro h
    unfold prepGo at h
    cases hr : p inp with
    | err es2 => rw [hr] at h; exact PResult.noConfusion h
    | panicked q => rw [hr] at h; exact PResult.noConfusion h
    | ok a rest =>
      rw [hr] at h
      dsimp at h
      split_ifs at h
      · cases hg : prepGo p fuel rest with
        | ok l r2 => rw [hg] at h; exact PResult.noConfusion h
        | err es2 => exact ih rest es2 hg
        | panicked q => rw [hg] at h; exact PResult.noConfusion h

theorem ne_prepeated (p : PComb α) : NeverEmptyErr (prepeated p) := by
  intro inp es h
  exact absurd h (prepGo_ne_err p (inp.1.length + 1) inp es)

theorem ne_pwhitespace : NeverEmptyErr pwhitespace := by
  intro inp es h
  exact PResult.noConfusion h

theorem ne_ppadded {p : PComb α} (hp : NeverEmptyErr p) : NeverEmptyErr (ppadded p) :=
  ne_pignoreThen ne_pwhitespace (ne_pthenIgnore hp ne_pwhitespace)

theorem ne_pnewline : NeverEmptyErr pnewline := by
  intro inp es h
  obtain ⟨s, off⟩ := inp
  unfold pnewline at h
  split at h
  all_goals
    first
      | exact PResult.noConfusion h
      | (rw [← PResult.err.inj h]; simp)

theorem ne_takeUntilGo {stop : PComb α} (hstop : NeverEmptyErr stop)
    (s : List Char) (off : Nat) (es : List PError)
    (h : takeUntilGo stop s off = PResult.err es) : es ≠ [] := by
  induction s generalizing off es with
  | nil =>
    unfold takeUntilGo at h
    cases hr : stop ([], off) with
    | ok a rest => rw [hr] at h; exact PResult.noConfusion h
    | err es2 =>
      rw [hr] at h
      dsimp at h
      rw [← PResult.err.inj h]
      exact hstop ([], off) es2 hr
    | panicked q => rw [hr] at h; exact PResult.noConfusion h
  | cons c cs ih =>
    unfold takeUntilGo at h
    cases hr : stop (c :: cs, off) with
    | ok a rest => rw [hr] at h; exact PResult.noConfusion h
    | panicked q => rw [hr] at h; exact PResult.noConfusion h
    | err es2 =>
      rw [hr] at h
      dsimp at h
      cases hg : takeUntilGo stop cs (off + 1) with
      | ok la rest => rw [hg] at h; exact PResult.noConfusion h
      | err es3 =>
        rw [hg] at h
        rw [← PResult.err.inj h]
        exact ih (off + 1) es3 hg
      | panicked q => rw [hg] at h; exact PResult.noConfusion h

theorem ne_ptakeUntil {stop : PComb α} (hstop : NeverEmptyErr stop) :
    NeverEmptyErr (ptakeUntil stop) := by
  intro inp es h
  exact ne_takeUntilGo hstop inp.1 inp.2 es h

theorem ne_floatG : NeverEmptyErr floatG := by
  intro inp es h
  unfold floatG at h
  cases hr : prepeated (pfilterChar floatChar) inp with
  | ok cs rest =>
    rw [hr] at h
    dsimp at h
    cases hf : parseFloat? cs with
    | some q => rw [hf] at h; exact PResult.noConfusion h
    | none =>
      rw [hf] at h
      rw [← PResult.err.inj h]
      simp
  | err es2 => exact absurd hr (prepGo_ne_err _ _ inp es2)
  | panicked q => rw [hr] at h; exact PResult.noConfusion h

theorem ne_dateTimeG : NeverEmptyErr dateTimeG := by
  intro inp es h
  unfold dateTimeG at h
  cases hr : pignoreThen (pjust (chars "A.D. ")) (ptakeUntil (pjust (chars " TDB"))) inp with
  | ok pr rest =>
    obtain ⟨cs, st⟩ := pr
    rw [hr] at h
    dsimp at h
    cases hf : parseFormat2 cs with
    | some t => rw [hf] at h; exact PResult.noConfusion h
    | none => rw [hf] at h; exact PResult.noConfusion h
  | err es2 =>
    rw [hr] at h
    rw [← PResult.err.inj h]
    exact ne_pignoreThen (ne_pjust _) (ne_ptakeUntil (ne_pjust _)) inp es2 hr
  | panicked q => rw [hr] at h; exact PResult.noConfusion h

theorem ne_parameterG (name : List Char) : NeverEmptyErr (parameterG name) :=
  ne_pignoreThen (ne_pjust _) (ne_pignoreThen (ne_ppadded (ne_pjust _)) ne_floatG)

theorem ne_itemG : NeverEmptyErr itemG := by
  unfold itemG
  apply ne_pmapP
  apply ne_pseq
  apply ne_pseq
  apply ne_pseq
  apply ne_pseq
  apply ne_pseq
  apply ne_pseq
  apply ne_pseq
  apply ne_pseq
  apply ne_pseq
  apply ne_pseq
  apply ne_pseq
  apply ne_pseq
  apply ne_pseq
  all_goals
    first
      | exact ne_pthenIgnore ne_floatG (ne_ppadded (ne_pjust _))
      | exact ne_ppadded ne_dateTimeG
      | exact ne_ppadded (ne_parameterG _)
      | exact ne_parameterG _

theorem ne_recordG : NeverEmptyErr recordG :=
  ne_pthenIgnore ne_itemG ne_pnewline

theorem ne_docG : NeverEmptyErr docG := by
  unfold docG
  exact ne_pthenIgnore
    (ne_pthenIgnore
      (ne_pignoreThen (ne_prepeated _)
        (ne_pignoreThen (ne_ppadded (ne_pjust _))
          (ne_pthenIgnore (ne_prepeated _) (ne_pjust _))))
      (ne_prepeated _))
    ne_pendP

/-- `true` when the Rust process would abort (any modelled panic,
including the `unwrap` of the error list in `parse`). -/
def isAbort {α : Type} : Except PanicKind α → Bool
  | Except.error _ => true
  | Except.ok _ => false

/-! ## Run lemmas for the state machines -/

theorem VState_isEnd_eq {s : VState} (h : s.isEnd = true) : s = VState.End := by
  cases s <;> simp [VState.isEnd] at h ⊢

theorem OState_isEnd_eq {s : OState} (h : s.isEnd = true) : s = OState.End := by
  cases s <;> simp [OState.isEnd] at h ⊢

theorem vectorRun_End (ys : List (List Char)) :
    vectorRun VState.End ys = ([], Except.ok VState.End) := by
  cases ys with
  | nil => rfl
  | cons l ls => rfl

theorem orbitalRun_End (ys : List (List Char)) :
    orbitalRun OState.End ys = ([], Except.ok OState.End) := by
  cases ys with
  | nil => rfl
  | cons l ls => rfl

theorem vectorRun_append (s : VState) (xs ys : List (List Char))
    (i1 : List EphemerisVectorItem) (s2 : VState)
    (h : vectorRun s xs = (i1, Except.ok s2)) :
    vectorRun s (xs ++ ys) = (i1 ++ (vectorRun s2 ys).1, (vectorRun s2 ys).2) := by
  induction xs generalizing s i1 with
  | nil =>
    rw [show vectorRun s [] = ([], Except.ok s) from rfl, Prod.ext_iff] at h
    obtain ⟨h1, h2⟩ := h
    dsimp at h1 h2
    rw [List.nil_append, ← h1, Except.ok.inj h2, List.nil_append]
  | cons l xs ih =>
    rw [List.cons_append]
    simp only [vectorRun] at h ⊢
    cases hstep : vectorStep s l with
    | error p =>
      rw [hstep] at h
      dsimp only at h
      rw [Prod.ext_iff] at h
      exact absurd h.2 (fun hc => Except.noConfusion hc)
    | ok pr =>
      obtain ⟨s3, oi⟩ := pr
      rw [hstep] at h
      dsimp only at h ⊢
      by_cases hend : s3.isEnd = true
      · rw [if_pos hend] at h ⊢
        rw [Prod.ext_iff] at h
        obtain ⟨h1, h2⟩ := h
        dsimp at h1 h2
        have hs3 := VState_isEnd_eq hend
        rw [← h1, ← Except.ok.inj h2, hs3, vectorRun_End]
        simp
      · rw [if_neg hend] at h ⊢
        rw [Prod.ext_iff] at h
        obtain ⟨h1, h2⟩ := h
        dsimp at h1 h2
        have hrun : vectorRun s3 xs = ((vectorRun s3 xs).1, Except.ok s2) := by
          rw [← h2]
        rw [ih s3 ((vectorRun s3 xs).1) hrun, ← h1, List.append_assoc]

theorem orbitalRun_append (s : OState) (xs ys : List (List Char))
    (i1 : List EphemerisOrbitalElementsItem) (s2 : OState)
    (h : orbitalRun s xs = (i1, Except.ok s2)) :
    orbitalRun s (xs ++ ys) = (i1 ++ (orbitalRun s2 ys).1, (orbitalRun s2 ys).2) := by
  induction xs generalizing s i1 with
  | nil =>
    rw [show orbitalRun s [] = ([], Except.ok s) from rfl, Prod.ext_iff] at h
    obtain ⟨h1, h2⟩ := h
    dsimp at h1 h2
    rw [List.nil_append, ← h1, Except.ok.inj h2, List.nil_append]
  | cons l xs ih =>
    rw [List.cons_append]
    simp only [orbitalRun] at h ⊢
    cases hstep : orbitalStep s l with
    | error p =>
      rw [hstep] at h
      dsimp only at h
      rw [Prod.ext_iff] at h
      exact absurd h.2 (fun hc => Except.noConfusion hc)
    | ok pr =>
      obtain ⟨s3, oi⟩ := pr
      rw [hstep] at h
      dsimp only at h ⊢
      by_cases hend : s3.isEnd = true
      · rw [if_pos hend] at h ⊢
        rw [Prod.ext_iff] at h
        obtain ⟨h1, h2⟩ := h
        dsimp at h1 h2
        have hs3 := OState_isEnd_eq hend
        rw [← h1, ← Except.ok.inj h2, hs3, orbitalRun_End]
        simp
      · rw [if_neg hend] at h ⊢
        rw [Prod.ext_iff] at h
        obtain ⟨h1, h2⟩ := h
        dsimp at h1 h2
        have hrun : orbitalRun s3 xs = ((orbitalRun s3 xs).1, Except.ok s2) := by
          rw [← h2]
        rw [ih s3 ((orbitalRun s3 xs).1) hrun, ← h1, List.append_assoc]

/-! ## Concrete fixture data -/

def c1DateLine : List Char := chars "2459805.372175926 = A.D. 2022-Aug-13 19:55:56.0000 TDB"
def c1BadVecLine : List Char := chars " Y = 2.484687803242536E+03"
def c1BadOrbLine : List Char := chars " QR= 1.469885520304013E+08"

def c4PosLine : List Char :=
  chars " X = 1.870010427985840E+02 Y = 2.484687803242536E+03 Z =-5.861602653492581E+03"
def c4VelLine : List Char :=
  chars " VX=-3.362664133558439E-01 VY= 1.344100266143978E-02 VZ=-5.030275220358716E-03"
def c4Time : UtcDateTime := ⟨2022, 8, 13, 19, 55, 56, 0⟩
def c4Pos : Vec3 :=
  ((1870010427985840 : ℚ) / 10 ^ 13, (2484687803242536 : ℚ) / 10 ^ 12,
   -((5861602653492581 : ℚ) / 10 ^ 12))
def c4Vel : Vec3 :=
  (-((3362664133558439 : ℚ) / 10 ^ 16), (1344100266143978 : ℚ) / 10 ^ 17,
   -((5030275220358716 : ℚ) / 10 ^ 18))
def c4Item : EphemerisVectorItem := ⟨c4Time, c4Pos, c4Vel⟩

def c5DateLine : List Char := chars "2459750.250000000 = A.D. 2022-Jun-19 18:00:00.0000 TDB "
def c5Row1 : List Char :=
  chars " EC= 1.711794334680415E-02 QR= 1.469885520304013E+08 IN= 3.134746902320420E-03"
def c5Row2 : List Char :=
  chars " OM= 1.633896137466430E+02 W = 3.006492364709574E+02 Tp=  2459584.392523936927"
def c5Row3 : List Char :=
  chars " N = 1.141316101270797E-05 MA= 1.635515780663357E+02 TA= 1.640958153023696E+02"
def c5Row4 : List Char :=
  chars " A = 1.495485150384278E+08 AD= 1.521084780464543E+08 PR= 3.154253230977451E+07"
def c5Time : UtcDateTime := ⟨2022, 6, 19, 18, 0, 0, 0⟩

/-! ## Claim theorems -/

/-- C1: the spec requires the streaming parsers to surface a mismatched
field label as an `UnexpectedLabel` value terminating the lazy sequence,
never panicking the process.  The code instead `unwrap`s the failed
`take_expecting` (its own `TODO: Don't panic.` comment marks the intent):
on a record whose first data line starts with `" Y ="` (respectively
`" QR="`) where `" X ="` (respectively `" EC="`) is expected, both machines
abort — modelled by the `Except.error` outcome carrying the panic site —
and emit no record. -/
theorem c1_label_mismatch_panics :
    vectorRun VState.WaitingForSoe [soeL, c1DateLine, c1BadVecLine] =
      ([], Except.error (PanicKind.unexpectedLabel (chars " X =") c1BadVecLine))
    ∧ orbitalRun OState.WaitingForSoe [soeL, c1DateLine, c1BadOrbLine] =
      ([], Except.error (PanicKind.unexpectedLabel (chars " EC=") c1BadOrbLine)) := by
  constructor
  · decide
  · decide

/-- C2: on a record preamble `"<jd> = A.D. YYYY-Mon-DD HH:MM:SS.ffff TDB"`,
the streaming decoder `parse_date_time` keeps the fixed 20-character slice
after `"A.D. "` and returns the whole-second timestamp (fraction digits
excluded, `nano = 0`); the grammar decoder (`date_time_parser` in the
source, `dateTimeG` here) consumes up to the literal `" TDB"` and returns
the sub-second timestamp carrying the fraction digits as nanoseconds.  Both
produce the same UTC point-in-time type (`UtcDateTime`), and when the
fractional part is zero the two results are equal. -/
theorem c2_two_decoders
    (jd y4 monS dd hh mm ss frac rest : List Char) (mo : Nat) (k : Nat)
    (hjd : ('=' : Char) ∉ jd)
    (h : dateComponentsOk y4 monS dd hh mm ss mo)
    (hf : frac.all Char.isDigit = true) (hfne : frac ≠ []) (hflen : frac.length ≤ 9)
    (hnoT : ¬ (chars " TDB") <:+:
      ((mkDateStr y4 monS dd hh mm ss ++ '.' :: frac) ++ [' ', 'T', 'D'])) :
    parse_date_time (jd ++ ' ' :: '=' :: ' ' :: (chars "A.D. " ++
        ((mkDateStr y4 monS dd hh mm ss ++ '.' :: frac) ++ chars " TDB"))) =
      Except.ok (mkTs y4 mo dd hh mm ss)
    ∧ dateTimeG (chars "A.D. " ++ ((mkDateStr y4 monS dd hh mm ss ++ '.' :: frac) ++
        (chars " TDB" ++ rest)), k) =
      PResult.ok { mkTs y4 mo dd hh mm ss with nano := digitsToNat frac }
        (rest, k + (30 + frac.length))
    ∧ (mkTs y4 mo dd hh mm ss).nano = 0
    ∧ (digitsToNat frac = 0 →
        { mkTs y4 mo dd hh mm ss with nano := digitsToNat frac } =
          mkTs y4 mo dd hh mm ss) :=
  ⟨parse_date_time_mk hjd h hf,
   dateTimeG_mk rest k h hf hfne hflen hnoT,
   rfl,
   fun hz => by rw [hz]; rfl⟩

/-- Witness for C2 at the vector fixture's preamble
`"2459805.372175926 = A.D. 2022-Aug-13 19:55:56.0000 TDB"`. -/
theorem c2_two_decoders_witness :
    parse_date_time (chars "2459805.372175926" ++ ' ' :: '=' :: ' ' :: (chars "A.D. " ++
        ((mkDateStr (chars "2022") (chars "Aug") (chars "13") (chars "19")
          (chars "55") (chars "56") ++ '.' :: chars "0000") ++ chars " TDB"))) =
      Except.ok (mkTs (chars "2022") 8 (chars "13") (chars "19") (chars "55") (chars "56"))
    ∧ dateTimeG (chars "A.D. " ++ ((mkDateStr (chars "2022") (chars "Aug") (chars "13")
        (chars "19") (chars "55") (chars "56") ++ '.' :: chars "0000") ++
        (chars " TDB" ++ [])), 0) =
      PResult.ok { mkTs (chars "2022") 8 (chars "13") (chars "19") (chars "55") (chars "56")
          with nano := digitsToNat (chars "0000") }
        ([], 0 + (30 + (chars "0000").length))
    ∧ (mkTs (chars "2022") 8 (chars "13") (chars "19") (chars "55") (chars "56")).nano = 0
    ∧ (digitsToNat (chars "0000") = 0 →
        { mkTs (chars "2022") 8 (chars "13") (chars "19") (chars "55") (chars "56")
            with nano := digitsToNat (chars "0000") } =
          mkTs (chars "2022") 8 (chars "13") (chars "19") (chars "55") (chars "56")) :=
  c2_two_decoders (chars "2459805.372175926") (chars "2022") (chars "Aug")
    (chars "13") (chars "19") (chars "55") (chars "56") (chars "0000") [] 8 0
    (by decide) (by decide) (by decide) (by decide) (by decide) (by decide)

attribute [local semireducible] Rat.mul Rat.inv Rat.add Rat.sub in
theorem c4_step_position :
    vectorStep (VState.Date c4Time) c4PosLine =
      Except.ok (VState.Position c4Time c4Pos, none) := by decide

attribute [local semireducible] Rat.mul Rat.inv Rat.add Rat.sub in
theorem c4_step_velocity :
    vectorStep (VState.Position c4Time c4Pos) c4VelLine =
      Except.ok (VState.Complete c4Time c4Pos c4Vel, none) := by decide

/-- C4: on the concrete 4-line fixture input after `$$SOE` — the preamble
`2459805.372175926 = A.D. 2022-Aug-13 19:55:56.0000 TDB`, the `X/Y/Z` line,
the `VX/VY/VZ` line, and any fourth line whatsoever — the vector machine
emits exactly one record, with `time = 2022-08-13T19:55:56Z` and the
position/velocity components equal to the exact values of the decimal
literals (float values embedded as exact rationals). -/
theorem c4_concrete_vector_record (l4 : List Char) :
    vectorRun VState.WaitingForSoe [soeL, c1DateLine, c4PosLine, c4VelLine, l4] =
      ([c4Item], Except.ok VState.WaitingForDate) := by
  have h1 : vectorStep VState.WaitingForSoe soeL =
      Except.ok (VState.WaitingForDate, none) := by decide
  have h2 : vectorStep VState.WaitingForDate c1DateLine =
      Except.ok (VState.Date c4Time, none) := by decide
  have h5 : vectorStep (VState.Complete c4Time c4Pos c4Vel) l4 =
      Except.ok (VState.WaitingForDate, some c4Item) := rfl
  simp [vectorRun, h1, h2, c4_step_position, c4_step_velocity, h5,
    VState.isEnd, Option.toList]

/-- C5: in the waiting-for-date state, the orbital-element machine consumes
exactly 5 physical lines per record — a decodable date line and four data
lines whose labels are `EC,QR,IN` / `OM,W,Tp` / `N,MA,TA` / `A,AD,PR` in
exactly that order (that is what the four `parseTriple` hypotheses demand) —
uses every line's decoded content in the emitted record, emits the record
upon the fourth data line, and continues from the waiting-for-date state.
A line that does not carry the expected first label (`" EC="` after a date)
is a label mismatch, not a reordered decode. -/
theorem c5_orbital_five_lines :
    (∀ (l0 l1 l2 l3 l4 : List Char) (ls : List (List Char)) (t : UtcDateTime)
       (e q i om w tp n ma ta a ad pr : ℚ),
      l0 ≠ eoeL →
      parse_date_time l0 = Except.ok t →
      parseTriple (chars " EC=") (chars " QR=") (chars " IN=") l1 = Except.ok (e, q, i) →
      parseTriple (chars " OM=") (chars " W =") (chars " Tp=") l2 = Except.ok (om, w, tp) →
      parseTriple (chars " N =") (chars " MA=") (chars " TA=") l3 = Except.ok (n, ma, ta) →
      parseTriple (chars " A =") (chars " AD=") (chars " PR=") l4 = Except.ok (a, ad, pr) →
      orbitalRun OState.WaitingForDate (l0 :: l1 :: l2 :: l3 :: l4 :: ls) =
        (⟨t, e, q, i, om, w, tp, n, ma, ta, a, ad, pr⟩ ::
            (orbitalRun OState.WaitingForDate ls).1,
         (orbitalRun OState.WaitingForDate ls).2))
    ∧ (∀ (t : UtcDateTime) (l : List Char),
        take_expecting l (chars " EC=") = none →
        orbitalStep (OState.Date t) l =
          Except.error (PanicKind.unexpectedLabel (chars " EC=") l)) := by
  constructor
  · intro l0 l1 l2 l3 l4 ls t e q i om w tp n ma ta a ad pr h0 hdt he ho hn ha
    simp [orbitalRun, orbitalStep, h0, hdt, he, ho, hn, ha, OState.isEnd, Option.toList]
  · intro t l hl
    simp [orbitalStep, parseTriple, hl]

attribute [local semireducible] Rat.mul Rat.inv Rat.add Rat.sub in
theorem c5_row1_decode :
    parseTriple (chars " EC=") (chars " QR=") (chars " IN=") c5Row1 =
      Except.ok ((1711794334680415 : ℚ) / 10 ^ 17, (1469885520304013 : ℚ) / 10 ^ 7,
        (3134746902320420 : ℚ) / 10 ^ 18) := by decide

attribute [local semireducible] Rat.mul Rat.inv Rat.add Rat.sub in
theorem c5_row2_decode :
    parseTriple (chars " OM=") (chars " W =") (chars " Tp=") c5Row2 =
      Except.ok ((1633896137466430 : ℚ) / 10 ^ 13, (3006492364709574 : ℚ) / 10 ^ 13,
        (2459584392523936927 : ℚ) / 10 ^ 12) := by decide

attribute [local semireducible] Rat.mul Rat.inv Rat.add Rat.sub in
theorem c5_row3_decode :
    parseTriple (chars " N =") (chars " MA=") (chars " TA=") c5Row3 =
      Except.ok ((1141316101270797 : ℚ) / 10 ^ 20, (1635515780663357 : ℚ) / 10 ^ 13,
        (1640958153023696 : ℚ) / 10 ^ 13) := by decide

attribute [local semireducible] Rat.mul Rat.inv Rat.add Rat.sub in
theorem c5_row4_decode :
    parseTriple (chars " A =") (chars " AD=") (chars " PR=") c5Row4 =
      Except.ok ((1495485150384278 : ℚ) / 10 ^ 7, (1521084780464543 : ℚ) / 10 ^ 7,
        (3154253230977451 : ℚ) / 10 ^ 8) := by decide

/-- Witness for C5 at the orbital fixture's first record. -/
theorem c5_orbital_five_lines_witness :
    orbitalRun OState.WaitingForDate [c5DateLine, c5Row1, c5Row2, c5Row3, c5Row4] =
      (⟨c5Time,
        (1711794334680415 : ℚ) / 10 ^ 17, (1469885520304013 : ℚ) / 10 ^ 7,
        (3134746902320420 : ℚ) / 10 ^ 18, (1633896137466430 : ℚ) / 10 ^ 13,
        (3006492364709574 : ℚ) / 10 ^ 13, (2459584392523936927 : ℚ) / 10 ^ 12,
        (1141316101270797 : ℚ) / 10 ^ 20, (1635515780663357 : ℚ) / 10 ^ 13,
        (1640958153023696 : ℚ) / 10 ^ 13, (1495485150384278 : ℚ) / 10 ^ 7,
        (1521084780464543 : ℚ) / 10 ^ 7, (3154253230977451 : ℚ) / 10 ^ 8⟩ ::
          (orbitalRun OState.WaitingForDate []).1,
       (orbitalRun OState.WaitingForDate []).2) :=
  c5_orbital_five_lines.1 c5DateLine c5Row1 c5Row2 c5Row3 c5Row4 [] c5Time
    _ _ _ _ _ _ _ _ _ _ _ _
    (by decide) (by decide) c5_row1_decode c5_row2_decode c5_row3_decode c5_row4_decode

/-- C6: a body of `$$SOE` immediately followed by `$$EOE` — below arbitrary
discarded non-sentinel prefix lines — makes both machines yield zero records
and no panic, stopping in the terminal `End` state; and from `End`, a run
over any remaining input yields nothing. -/
theorem c6_empty_body_and_end_terminal :
    (∀ (pre rest : List (List Char)),
      (∀ l ∈ pre, l ≠ soeL) →
      vectorRun VState.WaitingForSoe (pre ++ soeL :: eoeL :: rest) =
        ([], Except.ok VState.End)
      ∧ orbitalRun OState.WaitingForSoe (pre ++ soeL :: eoeL :: rest) =
        ([], Except.ok OState.End))
    ∧ (∀ ls : List (List Char),
      vectorRun VState.End ls = ([], Except.ok VState.End)
      ∧ orbitalRun OState.End ls = ([], Except.ok OState.End)) := by
  constructor
  · intro pre rest hpre
    induction pre with
    | nil =>
      constructor
      · simp [vectorRun, vectorStep, VState.isEnd, Option.toList]
      · simp [orbitalRun, orbitalStep, OState.isEnd, Option.toList]
    | cons l pre ih =>
      have hl : l ≠ soeL := hpre l (List.mem_cons_self l pre)
      obtain ⟨ihv, iho⟩ := ih (fun x hx => hpre x (List.mem_cons_of_mem l hx))
      constructor
      · rw [List.cons_append]
        simp [vectorRun, vectorStep, hl, VState.isEnd, Option.toList, ihv]
      · rw [List.cons_append]
        simp [orbitalRun, orbitalStep, hl, OState.isEnd, Option.toList, iho]
  · intro ls
    exact ⟨vectorRun_End ls, orbitalRun_End ls⟩

/-- Witness for C6 with one discarded junk line before the sentinels and
trailing input after `$$EOE`. -/
theorem c6_empty_body_witness :
    vectorRun VState.WaitingForSoe ([chars "junk"] ++ soeL :: eoeL :: [chars "tail"]) =
      ([], Except.ok VState.End)
    ∧ orbitalRun OState.WaitingForSoe ([chars "junk"] ++ soeL :: eoeL :: [chars "tail"]) =
      ([], Except.ok OState.End) :=
  c6_empty_body_and_end_terminal.1 [chars "junk"] [chars "tail"] (by decide)

/-- C7: exhausting the line source in any machine state — mid-record or
before `$$SOE` — yields no further records and no panic: the run over the
empty remainder returns the empty record list and the (non-panicking) final
state, for both machines. -/
theorem c7_truncation_is_silent :
    ∀ (s : VState) (t : OState),
      vectorRun s [] = ([], Except.ok s) ∧ orbitalRun t [] = ([], Except.ok t) :=
  fun _ _ => ⟨rfl, rfl⟩

/-- C8: record integrity.  (1) The vector machine returns a record from a
step only out of the fully-assembled `Complete` state, and the record is
exactly that state's payload — no partially assembled record is ever
observable (records are plain immutable values in this embedding, so a
record is also never mutated after construction).  (2) The `Complete` state
itself only arises from a `Position` state by fully decoding the velocity
line.  (3) The orbital machine emits only out of `ThirdRow` with the last
line fully decoded into the three remaining fields.  (4)/(5) Runs are
streaming and in input order: the records of `xs ++ ys` are the records of
`xs` followed by the records that the final state of `xs` produces on `ys`. -/
theorem c8_record_integrity :
    (∀ (s : VState) (l : List Char) (s2 : VState)
       (oi : Option EphemerisVectorItem) (it : EphemerisVectorItem),
      vectorStep s l = Except.ok (s2, oi) → oi = some it →
      s = VState.Complete it.time it.position it.velocity ∧ s2 = VState.WaitingForDate)
    ∧ (∀ (s : VState) (l : List Char) (t : UtcDateTime) (p v : Vec3)
         (oi : Option EphemerisVectorItem),
      vectorStep s l = Except.ok (VState.Complete t p v, oi) →
      s = VState.Position t p ∧ oi = none ∧
        parseTriple (chars " VX=") (chars " VY=") (chars " VZ=") l = Except.ok v)
    ∧ (∀ (s : OState) (l : List Char) (s2 : OState)
         (oi : Option EphemerisOrbitalElementsItem) (it : EphemerisOrbitalElementsItem),
      orbitalStep s l = Except.ok (s2, oi) → oi = some it →
      s2 = OState.WaitingForDate ∧
      s = OState.ThirdRow it.time it.eccentricity it.periapsis_distance it.inclination
        it.longitude_of_ascending_node it.argument_of_perifocus it.time_of_periapsis
        it.mean_motion it.mean_anomaly it.true_anomaly ∧
      parseTriple (chars " A =") (chars " AD=") (chars " PR=") l =
        Except.ok (it.semi_major_axis, it.apoapsis_distance, it.siderral_orbit_period))
    ∧ (∀ (s : VState) (xs ys : List (List Char))
         (i1 : List EphemerisVectorItem) (s2 : VState),
      vectorRun s xs = (i1, Except.ok s2) →
      vectorRun s (xs ++ ys) = (i1 ++ (vectorRun s2 ys).1, (vectorRun s2 ys).2))
    ∧ (∀ (s : OState) (xs ys : List (List Char))
         (i1 : List EphemerisOrbitalElementsItem) (s2 : OState),
      orbitalRun s xs = (i1, Except.ok s2) →
      orbitalRun s (xs ++ ys) = (i1 ++ (orbitalRun s2 ys).1, (orbitalRun s2 ys).2)) := by
  refine ⟨?_, ?_, ?_, vectorRun_append, orbitalRun_append⟩
  · intro s l s2 oi it hstep hoi
    subst hoi
    cases s with
    | WaitingForSoe => simp [vectorStep] at hstep
    | WaitingForDate =>
      simp only [vectorStep] at hstep
      split_ifs at hstep with hc
      · simp at hstep
      · cases hdt : parse_date_time l with
        | error p => rw [hdt] at hstep; exact Except.noConfusion hstep
        | ok t => rw [hdt] at hstep; simp at hstep
    | Date t =>
      simp only [vectorStep] at hstep
      cases hpt : parseTriple (chars " X =") (chars " Y =") (chars " Z =") l with
      | error p => rw [hpt] at hstep; exact Except.noConfusion hstep
      | ok v => rw [hpt] at hstep; simp at hstep
    | Position t p =>
      simp only [vectorStep] at hstep
      cases hpt : parseTriple (chars " VX=") (chars " VY=") (chars " VZ=") l with
      | error p => rw [hpt] at hstep; exact Except.noConfusion hstep
      | ok v => rw [hpt] at hstep; simp at hstep
    | Complete t p v =>
      simp only [vectorStep] at hstep
      have hp := Except.ok.inj hstep
      rw [Prod.ext_iff] at hp
      obtain ⟨h1, h2⟩ := hp
      dsimp at h1 h2
      have hit := Option.some.inj h2
      rw [← hit]
      exact ⟨rfl, h1.symm⟩
    | End => simp [vectorStep] at hstep
  · intro s l t p v oi hstep
    cases s with
    | WaitingForSoe =>
      simp only [vectorStep] at hstep
      have hp := Except.ok.inj hstep
      rw [Prod.ext_iff] at hp
      have h1 := hp.1
      dsimp at h1
      split_ifs at h1
    | WaitingForDate =>
      simp only [vectorStep] at hstep
      split_ifs at hstep with hc
      · have hp := Except.ok.inj hstep
        rw [Prod.ext_iff] at hp
        exact VState.noConfusion hp.1
      · cases hdt : parse_date_time l with
        | error pp => rw [hdt] at hstep; exact Except.noConfusion hstep
        | ok tt =>
          rw [hdt] at hstep
          have hp := Except.ok.inj hstep
          rw [Prod.ext_iff] at hp
          exact VState.noConfusion hp.1
    | Date tt =>
      simp only [vectorStep] at hstep
      cases hpt : parseTriple (chars " X =") (chars " Y =") (chars " Z =") l with
      | error pp => rw [hpt] at hstep; exact Except.noConfusion hstep
      | ok vv =>
        rw [hpt] at hstep
        have hp := Except.ok.inj hstep
        rw [Prod.ext_iff] at hp
        exact VState.noConfusion hp.1
    | Position tt pp =>
      simp only [vectorStep] at hstep
      cases hpt : parseTriple (chars " VX=") (chars " VY=") (chars " VZ=") l with
      | error px => rw [hpt] at hstep; exact Except.noConfusion hstep
      | ok vv =>
        rw [hpt] at hstep
        have hp := Except.ok.inj hstep
        rw [Prod.ext_iff] at hp
        obtain ⟨h1, h2⟩ := hp
        dsimp at h1 h2
        obtain ⟨ht, hpv, hvv⟩ := VState.Complete.inj h1
        subst ht
        subst hpv
        subst hvv
        exact ⟨rfl, h2.symm, rfl⟩
    | Complete tt pp vv =>
      simp only [vectorStep] at hstep
      have hp := Except.ok.inj hstep
      rw [Prod.ext_iff] at hp
      have h1 := hp.1
      dsimp at h1
      exact VState.noConfusion h1
    | End =>
      simp only [vectorStep] at hstep
      have hp := Except.ok.inj hstep
      rw [Prod.ext_iff] at hp
      exact VState.noConfusion hp.1
  · intro s l s2 oi it hstep hoi
    subst hoi
    cases s with
    | WaitingForSoe => simp [orbitalStep] at hstep
    | WaitingForDate =>
      simp only [orbitalStep] at hstep
      split_ifs at hstep with hc
      · simp at hstep
      · cases hdt : parse_date_time l with
        | error p => rw [hdt] at hstep; exact Except.noConfusion hstep
        | ok t => rw [hdt] at hstep; simp at hstep
    | Date t =>
      simp only [orbitalStep] at hstep
      cases hpt : parseTriple (chars " EC=") (chars " QR=") (chars " IN=") l with
      | error p => rw [hpt] at hstep; exact Except.noConfusion hstep
      | ok v => obtain ⟨a, b, c⟩ := v; rw [hpt] at hstep; simp at hstep
    | FirstRow t e q i =>
      simp only [orbitalStep] at hstep
      cases hpt : parseTriple (chars " OM=") (chars " W =") (chars " Tp=") l with
      | error p => rw [hpt] at hstep; exact Except.noConfusion hstep
      | ok v => obtain ⟨a, b, c⟩ := v; rw [hpt] at hstep; simp at hstep
    | SecondRow t e q i om w tp =>
      simp only [orbitalStep] at hstep
      cases hpt : parseTriple (chars " N =") (chars " MA=") (chars " TA=") l with
      | error p => rw [hpt] at hstep; exact Except.noConfusion hstep
      | ok v => obtain ⟨a, b, c⟩ := v; rw [hpt] at hstep; simp at hstep
    | ThirdRow t e q i om w tp n ma ta =>
      simp only [orbitalStep] at hstep
      cases hpt : parseTriple (chars " A =") (chars " AD=") (chars " PR=") l with
      | error p => rw [hpt] at hstep; exact Except.noConfusion hstep
      | ok v =>
        obtain ⟨a, b, c⟩ := v
        rw [hpt] at hstep
        have hp := Except.ok.inj hstep
        rw [Prod.ext_iff] at hp
        obtain ⟨h1, h2⟩ := hp
        dsimp at h1 h2
        have hit := Option.some.inj h2
        subst hit
        refine ⟨h1.symm, rfl, ?_⟩
        simp
    | End => simp [orbitalStep] at hstep

/-- Witness for C8: the emission inversion applied at the `Complete` state
holding the concrete fixture record. -/
theorem c8_record_integrity_witness :
    VState.Complete c4Time c4Pos c4Vel =
      VState.Complete c4Item.time c4Item.position c4Item.velocity
    ∧ VState.WaitingForDate = VState.WaitingForDate :=
  c8_record_integrity.1 (VState.Complete c4Time c4Pos c4Vel) [] VState.WaitingForDate
    (some c4Item) c4Item rfl rfl

/-- Two line lists that differ only in the content of the lines the vector
machine consumes while in the `Complete` state (each record's 4th physical
line).  In every other state the lines must be identical; the relation
follows the machine's own trajectory. -/
inductive CEquiv : VState → List (List Char) → List (List Char) → Prop where
  | nil (s : VState) : CEquiv s [] []
  | completeStep (t : UtcDateTime) (p v : Vec3) (l l' : List Char)
      (ls ls' : List (List Char)) :
      CEquiv VState.WaitingForDate ls ls' →
      CEquiv (VState.Complete t p v) (l :: ls) (l' :: ls')
  | otherStep (s : VState) (l : List Char) (ls ls' : List (List Char)) :
      (∀ t p v, s ≠ VState.Complete t p v) →
      (∀ s2 oi, vectorStep s l = Except.ok (s2, oi) → s2.isEnd = false →
        CEquiv s2 ls ls') →
      CEquiv s (l :: ls) (l :: ls')

/-- Deterministic-step introduction rule for `CEquiv` outside `Complete`. -/
theorem CEquiv.ofStep {s s0 : VState} {oi : Option EphemerisVectorItem}
    {l : List Char} {ls ls' : List (List Char)}
    (hnc : ∀ t p v, s ≠ VState.Complete t p v)
    (hstep : vectorStep s l = Except.ok (s0, oi))
    (h0 : s0.isEnd = false → CEquiv s0 ls ls') :
    CEquiv s (l :: ls) (l :: ls') := by
  refine CEquiv.otherStep s l ls ls' hnc ?_
  intro s2 oi2 hstep2 hend
  rw [hstep] at hstep2
  have hp := Except.ok.inj hstep2
  rw [Prod.ext_iff] at hp
  obtain ⟨h1, h2⟩ := hp
  dsimp at h1 h2
  subst h1
  exact h0 hend

/-- C10: the line consumed in the `Complete` state is swallowed without
being parsed: whenever two inputs differ only at those positions — even if
one of them puts `"$$EOE"` or an empty line there — the vector machine's
full output (records and final outcome) is identical. -/
theorem c10_fourth_line_ignored (s : VState) (ls ls' : List (List Char))
    (h : CEquiv s ls ls') : vectorRun s ls = vectorRun s ls' := by
  induction h with
  | nil s => rfl
  | completeStep t p v l l' ls ls' hrec ih =>
    have hstep : ∀ l0 : List Char, vectorStep (VState.Complete t p v) l0 =
        Except.ok (VState.WaitingForDate, some ⟨t, p, v⟩) := fun _ => rfl
    simp [vectorRun, hstep, VState.isEnd, ih]
  | otherStep s l ls ls' hnc hrec ih =>
    cases hstep : vectorStep s l with
    | error p => simp [vectorRun, hstep]
    | ok pr =>
      obtain ⟨s2, oi⟩ := pr
      by_cases hend : s2.isEnd = true
      · simp [vectorRun, hstep, hend]
      · have hend' : s2.isEnd = false := by
          cases hval : s2.isEnd with
          | false => rfl
          | true => exact absurd hval hend
        simp [vectorRun, hstep, hend', ih s2 oi hstep hend']

/-- Witness for C10: a 5-line input whose record's 4th physical line is
ordinary trailing data versus the same input with `"$$EOE"` there instead —
the runs coincide. -/
theorem c10_fourth_line_ignored_witness :
    vectorRun VState.WaitingForSoe [soeL, c1DateLine, c4PosLine, c4VelLine, chars "LT= 1"] =
    vectorRun VState.WaitingForSoe [soeL, c1DateLine, c4PosLine, c4VelLine, eoeL] := by
  apply c10_fourth_line_ignored
  refine CEquiv.ofStep (fun t p v h => VState.noConfusion h)
    (by decide : vectorStep VState.WaitingForSoe soeL =
      Except.ok (VState.WaitingForDate, none)) (fun _ => ?_)
  refine CEquiv.ofStep (fun t p v h => VState.noConfusion h)
    (by decide : vectorStep VState.WaitingForDate c1DateLine =
      Except.ok (VState.Date c4Time, none)) (fun _ => ?_)
  refine CEquiv.ofStep (fun t p v h => VState.noConfusion h)
    c4_step_position (fun _ => ?_)
  refine CEquiv.ofStep (fun t p v h => VState.noConfusion h)
    c4_step_velocity (fun _ => ?_)
  exact CEquiv.completeStep c4Time c4Pos c4Vel (chars "LT= 1") eoeL [] []
    (CEquiv.nil VState.WaitingForDate)

/-- C9: all three parsers are pure functions of their input in this
embedding, so parsing the same input twice yields equal output sequences —
for the two streaming machines and for the grammar-based `parse`. -/
theorem c9_parsing_deterministic :
    ∀ (lines : List (List Char)) (input : List Char),
      vectorRun VState.WaitingForSoe lines = vectorRun VState.WaitingForSoe lines
      ∧ orbitalRun OState.WaitingForSoe lines = orbitalRun OState.WaitingForSoe lines
      ∧ parse input = parse input :=
  fun _ _ => ⟨rfl, rfl, rfl⟩

/-- C3, counterexample: the claim says the whole-document parser returns
its syntax errors to the caller and never aborts the process.  On the
malformed input `"x"` the source's `parse` calls `.unwrap()` on the failed
chumsky result, so the process aborts — in this model, the run produces the
abort outcome. -/
theorem c3_counterexample : isAbort (parse (chars "x")) = true := by decide

/-- C3, amended: on every malformed input the grammar run produces a
nonempty list of `Simple`-style syntax errors — each carrying the byte
offset of the failure, the unexpected token or end-of-input, and (when
available) the expected tokens — and `parse` then reports them and aborts
via `unwrap`, carrying exactly that error list, instead of returning it to
the caller. -/
theorem c3_errors_reported_then_abort (input : List Char) (es : List PError)
    (h : docG (input, 0) = PResult.err es) :
    parse input = Except.error (PanicKind.grammarUnwrap es) ∧ es ≠ [] := by
  constructor
  · unfold parse
    rw [h]
  · exact ne_docG (input, 0) es h

/-- Witness for the amended C3 at the malformed input `"x"`: the single
syntax error sits at offset 1 (the end of the malformed text), reports
end-of-input as the unexpected token and `$$SOE` as expected, and `parse`
aborts carrying it. -/
theorem c3_errors_reported_then_abort_witness :
    parse (chars "x") =
      Except.error (PanicKind.grammarUnwrap [⟨1, 2, none, [soeL]⟩])
    ∧ ([⟨1, 2, none, [soeL]⟩] : List PError) ≠ [] :=
  c3_errors_reported_then_abort (chars "x") [⟨1, 2, none, [soeL]⟩] (by decide)

end RHorizons
